import Mathlib

/-!
Verification of the tokenization-to-style pipeline and the theme color
registry of the standalone-monarch repository, shallowly embedded in Lean.

The embedding follows the TypeScript sources:
* `vs/editor/standalone/browser/standaloneLanguages.ts`
  (`TokenizationSupport2Adapter` with `_toClassicTokens`, `_toBinaryTokens`,
  `tokenize`, `tokenize2`, and `setMonarchTokensProvider`);
* the color registry module (`ColorRegistry`, `resolveColorValue`,
  `resolveDefaultColor`, `registerColor`, `deregisterColor`, `getColors`).

JavaScript numbers that the program only ever uses as integers are modelled
as `Int` (so negative raw offsets and negative `offsetDelta` are expressible);
the final `Uint32Array` copy truncates modulo `2^32` as the JavaScript
`ToUint32` conversion does.
-/

/-- Model of `IToken` of standaloneLanguages.ts: a raw token produced by the external
grammar engine: `{startIndex: number, scopes: string}`. -/
structure IToken where
  startIndex : Int
  scopes : String
deriving DecidableEq, Repr

/-- The classic `Token` emitted by the adapter.  The `Token` class itself
(vs/editor/common/core/token) is not among the sources; its three
constructor arguments at the call site
`new Token(startIndex + offsetDelta, t.scopes, language)` are modelled as
the three fields below. -/
structure Token where
  startIndex : Int
  scopes : String
  language : String
deriving DecidableEq, Repr

/-- The loop body of `TokenizationSupport2Adapter._toClassicTokens`
(standaloneLanguages.ts lines 119-144): the arguments `i` and
`previousStartIndex` are the loop counter and the mutable variable of the
source; for `i = 0` the start index is forced to `0`, afterwards it is
clamped up to the previous corrected start index, and `offsetDelta` is
added before emitting. -/
def toClassicTokensAux (language : String) (offsetDelta : Int) :
    List IToken → Nat → Int → List Token
  | [], _, _ => []
  | t :: rest, i, previousStartIndex =>
    let startIndex : Int :=
      if i = 0 then 0
      else if t.startIndex < previousStartIndex then previousStartIndex
      else t.startIndex
    Token.mk (startIndex + offsetDelta) t.scopes language ::
      toClassicTokensAux language offsetDelta rest (i + 1) startIndex

/-- Model of `TokenizationSupport2Adapter._toClassicTokens`, entered with `i = 0` and
`previousStartIndex = 0` as in the source. -/
def toClassicTokens (tokens : List IToken) (language : String)
    (offsetDelta : Int) : List Token :=
  toClassicTokensAux language offsetDelta tokens 0 0

theorem toClassicTokensAux_length (language : String) (offsetDelta : Int) :
    ∀ (toks : List IToken) (i : Nat) (prev : Int),
      (toClassicTokensAux language offsetDelta toks i prev).length = toks.length := by
  intro toks
  induction toks with
  | nil => intro i prev; simp [toClassicTokensAux]
  | cons t rest ih =>
      intro i prev
      simp [toClassicTokensAux, ih]

theorem toClassicTokensAux_scopes (language : String) (offsetDelta : Int) :
    ∀ (toks : List IToken) (i : Nat) (prev : Int),
      (toClassicTokensAux language offsetDelta toks i prev).map Token.scopes
        = toks.map IToken.scopes := by
  intro toks
  induction toks with
  | nil => intro i prev; simp [toClassicTokensAux]
  | cons t rest ih =>
      intro i prev
      simp [toClassicTokensAux, ih]

theorem toClassicTokensAux_language (language : String) (offsetDelta : Int) :
    ∀ (toks : List IToken) (i : Nat) (prev : Int),
      (toClassicTokensAux language offsetDelta toks i prev).all
        (fun tok => tok.language == language) = true := by
  intro toks
  induction toks with
  | nil => intro i prev; simp [toClassicTokensAux]
  | cons t rest ih =>
      intro i prev
      simp [toClassicTokensAux, ih]

theorem toClassicTokensAux_chain (language : String) (offsetDelta : Int) :
    ∀ (toks : List IToken) (i : Nat) (prev : Int) (sc : String),
      List.Chain' (fun a b => a.startIndex ≤ b.startIndex)
        (Token.mk (prev + offsetDelta) sc language ::
          toClassicTokensAux language offsetDelta toks (i + 1) prev) := by
  intro toks
  induction toks with
  | nil => intro i prev sc; simp [toClassicTokensAux]
  | cons t rest ih =>
      intro i prev sc
      simp only [toClassicTokensAux, Nat.succ_ne_zero, if_false]
      by_cases hlt : t.startIndex < prev
      · simp only [if_pos hlt]
        exact List.Chain'.cons (le_refl _) (ih (i + 1) prev t.scopes)
      · simp only [if_neg hlt]
        exact List.Chain'.cons
          (show prev + offsetDelta ≤ t.startIndex + offsetDelta by omega)
          (ih (i + 1) t.startIndex t.scopes)

/-- C1: the classic adapter (`_toClassicTokens`) emits exactly one token per
raw token; the first emitted start index equals `offsetDelta`; emitted start
indices are non-decreasing; scopes are preserved unchanged; the owning
language id is attached to every emitted token. -/
theorem toClassicTokens_spec (tokens : List IToken) (language : String)
    (offsetDelta : Int) :
    (toClassicTokens tokens language offsetDelta).length = tokens.length ∧
    (toClassicTokens tokens language offsetDelta).head?.map Token.startIndex
      = tokens.head?.map (fun _ => offsetDelta) ∧
    List.Chain' (fun a b => a.startIndex ≤ b.startIndex)
      (toClassicTokens tokens language offsetDelta) ∧
    (toClassicTokens tokens language offsetDelta).map Token.scopes
      = tokens.map IToken.scopes ∧
    (toClassicTokens tokens language offsetDelta).all
      (fun tok => tok.language == language) = true := by
  refine ⟨toClassicTokensAux_length _ _ _ _ _, ?_, ?_, toClassicTokensAux_scopes _ _ _ _ _,
    toClassicTokensAux_language _ _ _ _ _⟩
  · cases tokens with
    | nil => simp [toClassicTokens, toClassicTokensAux]
    | cons t rest => simp [toClassicTokens, toClassicTokensAux]
  · cases tokens with
    | nil => simp [toClassicTokens, toClassicTokensAux]
    | cons t rest =>
        have h := toClassicTokensAux_chain language offsetDelta rest 0 0 t.scopes
        simpa [toClassicTokens, toClassicTokensAux] using h

/-- The loop body of `TokenizationSupport2Adapter._toBinaryTokens`
(standaloneLanguages.ts lines 169-206).  `tokenTheme` is the external
`TokenTheme.match(languageId, scopes)` capability; `lastMeta` is the last
entry of the `result` array (`result[resultLen - 1]`), i.e. the metadata of
the most recently emitted pair, `none` while `resultLen = 0`.  A token whose
metadata equals the last emitted metadata is skipped (`continue`) before the
offset correction, so `previousStartIndex` does not advance past it. -/
def toBinaryTokensAux (tokenTheme : Nat → String → Int) (languageId : Nat)
    (offsetDelta : Int) :
    List IToken → Nat → Int → Option Int → List Int
  | [], _, _, _ => []
  | t :: rest, i, previousStartIndex, lastMeta =>
    let metadata := tokenTheme languageId t.scopes
    if lastMeta = some metadata then
      toBinaryTokensAux tokenTheme languageId offsetDelta rest (i + 1)
        previousStartIndex lastMeta
    else
      let startIndex : Int :=
        if i = 0 then 0
        else if t.startIndex < previousStartIndex then previousStartIndex
        else t.startIndex
      (startIndex + offsetDelta) :: metadata ::
        toBinaryTokensAux tokenTheme languageId offsetDelta rest (i + 1)
          startIndex (some metadata)

/-- The `result` number array built by
`TokenizationSupport2Adapter._toBinaryTokens` before it is copied into the
`Uint32Array` (entries are still arbitrary-precision JavaScript numbers). -/
def toBinaryTokensRaw (tokenTheme : Nat → String → Int) (languageId : Nat)
    (tokens : List IToken) (offsetDelta : Int) : List Int :=
  toBinaryTokensAux tokenTheme languageId offsetDelta tokens 0 0 none

/-- The JavaScript `ToUint32` conversion applied when a number is stored
into a `Uint32Array`. -/
def toUint32 (x : Int) : Nat := (x.emod 4294967296).toNat

/-- The `Uint32Array` returned by `_toBinaryTokens`: the `result` entries
copied one by one (each coerced by `ToUint32`). -/
def toBinaryTokens (tokenTheme : Nat → String → Int) (languageId : Nat)
    (tokens : List IToken) (offsetDelta : Int) : List Nat :=
  (toBinaryTokensRaw tokenTheme languageId tokens offsetDelta).map toUint32

/-- Number of pairs the binary loop emits when the last already-emitted
metadata is `last`: a head token is skipped exactly when its metadata equals
`last`. -/
def emitCount : Option Int → List Int → Nat
  | _, [] => 0
  | last, m :: l => (if last = some m then 0 else 1) + emitCount (some m) l

/-- Number of maximal runs of consecutive equal values. -/
def runCount : List Int → Nat
  | [] => 0
  | [_] => 1
  | a :: b :: l => (if a = b then 0 else 1) + runCount (b :: l)

theorem toBinaryTokensAux_length (tokenTheme : Nat → String → Int)
    (languageId : Nat) (offsetDelta : Int) :
    ∀ (toks : List IToken) (i : Nat) (prev : Int) (lastMeta : Option Int),
      (toBinaryTokensAux tokenTheme languageId offsetDelta toks i prev lastMeta).length
        = 2 * emitCount lastMeta (toks.map fun t => tokenTheme languageId t.scopes) := by
  intro toks
  induction toks with
  | nil => intro i prev lastMeta; simp [toBinaryTokensAux, emitCount]
  | cons t rest ih =>
      intro i prev lastMeta
      simp only [toBinaryTokensAux]
      by_cases h : lastMeta = some (tokenTheme languageId t.scopes)
      · rw [if_pos h, ih]
        simp [emitCount, h]
      · rw [if_neg h]
        simp only [List.length_cons, List.map_cons, emitCount, if_neg h]
        rw [ih]
        ring

theorem emitCount_some_eq_runCount (l : List Int) :
    ∀ a : Int, emitCount (some a) l + 1 = runCount (a :: l) := by
  induction l with
  | nil => intro a; simp [emitCount, runCount]
  | cons m l ih =>
      intro a
      show (if some a = some m then 0 else 1) + emitCount (some m) l + 1
        = (if a = m then 0 else 1) + runCount (m :: l)
      rw [← ih m]
      simp only [Option.some.injEq]
      ring

theorem emitCount_none_eq_runCount (l : List Int) :
    emitCount none l = runCount l := by
  cases l with
  | nil => simp [emitCount, runCount]
  | cons a l =>
      show (if (none : Option Int) = some a then 0 else 1) + emitCount (some a) l
        = runCount (a :: l)
      rw [← emitCount_some_eq_runCount l a]
      simp [Nat.add_comm]

theorem toBinaryTokensAux_allSame (tokenTheme : Nat → String → Int)
    (languageId : Nat) (offsetDelta : Int) :
    ∀ (toks : List IToken) (i : Nat) (prev : Int) (m : Int),
      (∀ t ∈ toks, tokenTheme languageId t.scopes = m) →
      toBinaryTokensAux tokenTheme languageId offsetDelta toks i prev (some m) = [] := by
  intro toks
  induction toks with
  | nil => intro i prev m _; simp [toBinaryTokensAux]
  | cons t rest ih =>
      intro i prev m h
      have ht : tokenTheme languageId t.scopes = m := h t (by simp)
      simp only [toBinaryTokensAux, ht, if_pos rfl]
      exact ih (i + 1) prev m (fun t' ht' => h t' (by simp [ht']))

/-- C3: the binary adapter collapses adjacent same-metadata tokens.  The
encoded stream's length is `2 ×` the number of maximal runs of consecutive
tokens with identical resolved metadata; a non-empty token list whose
metadata values are all identical yields exactly the single pair
`[0 + offsetDelta, metadata]` (start = the first raw token's corrected start
index); and whenever some run has more than one token the length is not
`2 ×` the raw token count. -/
theorem toBinaryTokens_runLength (tokenTheme : Nat → String → Int)
    (languageId : Nat) (tokens : List IToken) (offsetDelta : Int) :
    ((toBinaryTokens tokenTheme languageId tokens offsetDelta).length
        = 2 * runCount (tokens.map fun t => tokenTheme languageId t.scopes)) ∧
    (∀ t0 rest, tokens = t0 :: rest →
        (∀ t ∈ rest, tokenTheme languageId t.scopes
            = tokenTheme languageId t0.scopes) →
        toBinaryTokensRaw tokenTheme languageId tokens offsetDelta
          = [0 + offsetDelta, tokenTheme languageId t0.scopes]) ∧
    (runCount (tokens.map fun t => tokenTheme languageId t.scopes) < tokens.length →
        (toBinaryTokens tokenTheme languageId tokens offsetDelta).length
          ≠ 2 * tokens.length) := by
  have hlen : (toBinaryTokens tokenTheme languageId tokens offsetDelta).length
      = 2 * runCount (tokens.map fun t => tokenTheme languageId t.scopes) := by
    rw [toBinaryTokens, List.length_map, toBinaryTokensRaw,
      toBinaryTokensAux_length, emitCount_none_eq_runCount]
  refine ⟨hlen, ?_, ?_⟩
  · intro t0 rest htok hsame
    subst htok
    have htail := toBinaryTokensAux_allSame tokenTheme languageId offsetDelta rest 1 0
      (tokenTheme languageId t0.scopes) hsame
    rw [toBinaryTokensRaw]
    simp [toBinaryTokensAux, htail]
  · intro hlt
    rw [hlen]
    omega

/-- Witness for `toBinaryTokens_runLength` at a concrete run of two
same-metadata tokens. -/
theorem toBinaryTokens_runLength_witness :
    toBinaryTokensRaw (fun _ _ => 7) 0 [⟨0, "x"⟩, ⟨5, "x"⟩] 0 = [0, 7] ∧
    (toBinaryTokens (fun _ _ => 7) 0 [⟨0, "x"⟩, ⟨5, "x"⟩] 0).length ≠ 2 * 2 := by
  have th := toBinaryTokens_runLength (fun _ _ => 7) 0 [⟨0, "x"⟩, ⟨5, "x"⟩] 0
  constructor
  · have h := th.2.1 ⟨0, "x"⟩ [⟨5, "x"⟩] rfl (by decide)
    simpa using h
  · have h := th.2.2 (by decide)
    simpa using h

/-- Interleave a list of start indices with a list of metadata values into
one flat `[start, metadata, start, metadata, ...]` stream. -/
def flatPairs : List Int → List Int → List Int
  | a :: as, b :: bs => a :: b :: flatPairs as bs
  | _, _ => []

/-- Drop the `(start, metadata)` pairs whose metadata equals the metadata of
the last kept pair, flattening the remainder. -/
def dedupPairs : Option Int → List (Int × Int) → List Int
  | _, [] => []
  | last, (s, m) :: l =>
    if last = some m then dedupPairs last l
    else s :: m :: dedupPairs (some m) l

/-- Follows the words of the specification for the refinement claim C2: the
binary stream allegedly carries, in each emitted pair, exactly the start
index `_toClassicTokens` assigns to the same raw-token position (clamping
over all tokens), with pairs whose metadata equals the last emitted
metadata dropped. -/
def toBinaryTokensSpec (tokenTheme : Nat → String → Int) (languageId : Nat)
    (tokens : List IToken) (language : String) (offsetDelta : Int) : List Int :=
  dedupPairs none
    (((toClassicTokens tokens language offsetDelta).map Token.startIndex).zip
      (tokens.map fun t => tokenTheme languageId t.scopes))

/-- C2 fails on the code: with raw starts `[0, 5, 3]` and resolved metadata
`[1, 1, 2]`, the dedup-skipped middle token does not advance the binary
loop's clamping baseline, so the second emitted pair carries start `3`,
while `_toClassicTokens` assigns `5` to the same raw-token position. -/
theorem toBinaryTokens_start_mismatch :
    toBinaryTokensRaw (fun _ s => if s = "y" then 2 else 1) 0
        [⟨0, "x"⟩, ⟨5, "x"⟩, ⟨3, "y"⟩] 0 = [0, 1, 3, 2] ∧
    (toClassicTokens [⟨0, "x"⟩, ⟨5, "x"⟩, ⟨3, "y"⟩] "lang" 0).map Token.startIndex
        = [0, 5, 5] ∧
    toBinaryTokensSpec (fun _ s => if s = "y" then 2 else 1) 0
        [⟨0, "x"⟩, ⟨5, "x"⟩, ⟨3, "y"⟩] "lang" 0 = [0, 1, 5, 2] ∧
    toBinaryTokensRaw (fun _ s => if s = "y" then 2 else 1) 0
        [⟨0, "x"⟩, ⟨5, "x"⟩, ⟨3, "y"⟩] 0
      ≠ toBinaryTokensSpec (fun _ s => if s = "y" then 2 else 1) 0
        [⟨0, "x"⟩, ⟨5, "x"⟩, ⟨3, "y"⟩] "lang" 0 := by
  refine ⟨by decide, by decide, by decide, by decide⟩

theorem toBinaryTokensAux_noskip (tokenTheme : Nat → String → Int)
    (languageId : Nat) (language : String) (offsetDelta : Int) :
    ∀ (toks : List IToken) (i : Nat) (prev : Int) (m : Int),
      List.Chain' (fun a b => a ≠ b)
        (m :: toks.map fun t => tokenTheme languageId t.scopes) →
      toBinaryTokensAux tokenTheme languageId offsetDelta toks (i + 1) prev (some m)
        = flatPairs
            ((toClassicTokensAux language offsetDelta toks (i + 1) prev).map
              Token.startIndex)
            (toks.map fun t => tokenTheme languageId t.scopes) := by
  intro toks
  induction toks with
  | nil => intro i prev m _; simp [toBinaryTokensAux, toClassicTokensAux, flatPairs]
  | cons t rest ih =>
      intro i prev m hch
      simp only [List.map_cons] at hch
      rw [List.chain'_cons] at hch
      obtain ⟨hne, hch'⟩ := hch
      simp only [toBinaryTokensAux, toClassicTokensAux, Nat.succ_ne_zero, if_false,
        List.map_cons]
      rw [if_neg (show ¬((some m : Option Int)
        = some (tokenTheme languageId t.scopes)) by simpa using hne)]
      by_cases hlt : t.startIndex < prev
      · simp only [if_pos hlt, flatPairs]
        rw [ih (i + 1) prev (tokenTheme languageId t.scopes) hch']
      · simp only [if_neg hlt, flatPairs]
        rw [ih (i + 1) t.startIndex (tokenTheme languageId t.scopes) hch']

/-- C2 amended: when no token is skipped by metadata deduplication (adjacent
resolved metadata values are pairwise distinct) every pair emitted by
`_toBinaryTokens` carries exactly the start index `_toClassicTokens` assigns
to the same raw-token position; with skips, the binary clamping baseline
does not advance past the skipped tokens (see the counterexample). -/
theorem toBinaryTokens_matches_classic_of_noskip (tokenTheme : Nat → String → Int)
    (languageId : Nat) (language : String) (tokens : List IToken) (offsetDelta : Int)
    (h : List.Chain' (fun a b => a ≠ b)
      (tokens.map fun t => tokenTheme languageId t.scopes)) :
    toBinaryTokensRaw tokenTheme languageId tokens offsetDelta
      = flatPairs
          ((toClassicTokens tokens language offsetDelta).map Token.startIndex)
          (tokens.map fun t => tokenTheme languageId t.scopes) := by
  cases tokens with
  | nil => simp [toBinaryTokensRaw, toBinaryTokensAux, toClassicTokens,
      toClassicTokensAux, flatPairs]
  | cons t0 rest =>
      have haux := toBinaryTokensAux_noskip tokenTheme languageId language offsetDelta
        rest 0 0 (tokenTheme languageId t0.scopes) (by simpa using h)
      rw [toBinaryTokensRaw, toClassicTokens]
      simp [toBinaryTokensAux, toClassicTokensAux, flatPairs, haux]

/-- Witness for `toBinaryTokens_matches_classic_of_noskip` at two tokens
with distinct metadata. -/
theorem toBinaryTokens_matches_classic_of_noskip_witness :
    toBinaryTokensRaw (fun _ s => if s = "y" then 2 else 1) 0 [⟨0, "x"⟩, ⟨5, "y"⟩] 0
      = flatPairs
          ((toClassicTokens [⟨0, "x"⟩, ⟨5, "y"⟩] "lang" 0).map Token.startIndex)
          (([⟨0, "x"⟩, ⟨5, "y"⟩] : List IToken).map
            fun t => (fun _ s => if s = "y" then 2 else 1 : Nat → String → Int) 0 t.scopes) :=
  toBinaryTokens_matches_classic_of_noskip (fun _ s => if s = "y" then 2 else 1) 0
    "lang" [⟨0, "x"⟩, ⟨5, "y"⟩] 0
    (by simp only [List.map_cons, List.map_nil, List.chain'_pair]; decide)

/-- The entries stored at even positions of an encoded stream (the start
indices of the `[start, metadata]` pairs). -/
def starts {α : Type} : List α → List α
  | a :: _ :: l => a :: starts l
  | [a] => [a]
  | [] => []

theorem starts_map {α β : Type} (f : α → β) :
    ∀ l : List α, starts (l.map f) = (starts l).map f
  | [] => by simp [starts]
  | [a] => by simp [starts]
  | a :: b :: l => by simp [starts, starts_map f l]

theorem toBinaryTokensAux_startsBounds (tokenTheme : Nat → String → Int)
    (languageId : Nat) (offsetDelta : Int) (h0 : 0 ≤ offsetDelta) :
    ∀ (toks : List IToken) (i : Nat) (prev : Int) (lastMeta : Option Int),
      0 ≤ prev → prev + offsetDelta < 4294967296 →
      (∀ t ∈ toks, t.startIndex + offsetDelta < 4294967296) →
      List.Chain' (fun a b => a ≤ b)
        ((prev + offsetDelta) ::
          starts (toBinaryTokensAux tokenTheme languageId offsetDelta toks
            (i + 1) prev lastMeta)) ∧
      (∀ x ∈ starts (toBinaryTokensAux tokenTheme languageId offsetDelta toks
            (i + 1) prev lastMeta), 0 ≤ x ∧ x < 4294967296) := by
  intro toks
  induction toks with
  | nil => intro i prev lastMeta _ _ _; simp [toBinaryTokensAux, starts]
  | cons t rest ih =>
      intro i prev lastMeta hprev hub htoks
      have htrest : ∀ t' ∈ rest, t'.startIndex + offsetDelta < 4294967296 :=
        fun t' ht' => htoks t' (by simp [ht'])
      simp only [toBinaryTokensAux]
      by_cases hmeta : lastMeta = some (tokenTheme languageId t.scopes)
      · rw [if_pos hmeta]
        exact ih (i + 1) prev lastMeta hprev hub htrest
      · rw [if_neg hmeta]
        simp only [Nat.succ_ne_zero, if_false]
        by_cases hlt : t.startIndex < prev
        · simp only [if_pos hlt, starts]
          have hrec := ih (i + 1) prev (some (tokenTheme languageId t.scopes))
            hprev hub htrest
          exact ⟨List.Chain'.cons (le_refl _) hrec.1,
            fun x hx => by
              rcases List.mem_cons.mp hx with hx | hx
              · subst hx; constructor <;> omega
              · exact hrec.2 x hx⟩
        · simp only [if_neg hlt, starts]
          have hsb : t.startIndex + offsetDelta < 4294967296 := htoks t (by simp)
          have hprev' : 0 ≤ t.startIndex := by omega
          have hrec := ih (i + 1) t.startIndex (some (tokenTheme languageId t.scopes))
            hprev' hsb htrest
          exact ⟨List.Chain'.cons (by omega) hrec.1,
            fun x hx => by
              rcases List.mem_cons.mp hx with hx | hx
              · subst hx; constructor <;> omega
              · exact hrec.2 x hx⟩

theorem toUint32_eq_toNat (x : Int) (h1 : 0 ≤ x) (h2 : x < 4294967296) :
    toUint32 x = x.toNat := by
  rw [toUint32, show x.emod 4294967296 = x from Int.emod_eq_of_lt h1 h2]

/-- C10 fails as stated for arbitrary `offsetDelta`: with `offsetDelta = -1`
the `ToUint32` coercion of the `Uint32Array` wraps the first corrected start
`-1` to `4294967295`, so the stored start indices are not non-decreasing and
the first stored start differs from `offsetDelta`. -/
theorem toBinaryTokens_wellFormed_fails :
    toBinaryTokens (fun _ s => if s = "y" then 2 else 1) 0
        [⟨0, "x"⟩, ⟨5, "y"⟩] (-1) = [4294967295, 1, 4, 2] ∧
    starts (toBinaryTokens (fun _ s => if s = "y" then 2 else 1) 0
        [⟨0, "x"⟩, ⟨5, "y"⟩] (-1)) = [4294967295, 4] ∧
    ¬ List.Chain' (fun a b : Nat => a ≤ b)
        (starts (toBinaryTokens (fun _ s => if s = "y" then 2 else 1) 0
          [⟨0, "x"⟩, ⟨5, "y"⟩] (-1))) ∧
    (toBinaryTokens (fun _ s => if s = "y" then 2 else 1) 0
        [⟨0, "x"⟩, ⟨5, "y"⟩] (-1)).head? = some 4294967295 ∧
    ((4294967295 : Int) ≠ (-1 : Int)) := by
  have hs : starts (toBinaryTokens (fun _ s => if s = "y" then 2 else 1) 0
      [⟨0, "x"⟩, ⟨5, "y"⟩] (-1)) = [4294967295, 4] := by decide
  refine ⟨by decide, hs, ?_, by decide, by decide⟩
  rw [hs, List.chain'_pair]
  decide

/-- C10 amended: for a non-negative `offsetDelta` small enough that every
corrected-plus-shifted start fits in 32 bits, the `Uint32Array` produced by
`_toBinaryTokens` is well-formed for every raw token list (even ones
violating offset monotonicity): its length is even, the start indices at
even positions are non-decreasing, and for a non-empty input the first
stored start equals `offsetDelta`. -/
theorem toBinaryTokens_wellFormed (tokenTheme : Nat → String → Int)
    (languageId : Nat) (tokens : List IToken) (offsetDelta : Int)
    (h0 : 0 ≤ offsetDelta) (h1 : offsetDelta < 4294967296)
    (hb : ∀ t ∈ tokens, t.startIndex + offsetDelta < 4294967296) :
    (toBinaryTokens tokenTheme languageId tokens offsetDelta).length % 2 = 0 ∧
    List.Chain' (fun a b : Nat => a ≤ b)
      (starts (toBinaryTokens tokenTheme languageId tokens offsetDelta)) ∧
    (tokens ≠ [] →
      (toBinaryTokens tokenTheme languageId tokens offsetDelta).head?
          = some offsetDelta.toNat ∧
      (offsetDelta.toNat : Int) = offsetDelta) := by
  have hlen : (toBinaryTokens tokenTheme languageId tokens offsetDelta).length
      = 2 * emitCount none (tokens.map fun t => tokenTheme languageId t.scopes) := by
    rw [toBinaryTokens, List.length_map, toBinaryTokensRaw, toBinaryTokensAux_length]
  refine ⟨by omega, ?_, ?_⟩
  · cases tokens with
    | nil => simp [toBinaryTokens, toBinaryTokensRaw, toBinaryTokensAux, starts]
    | cons t0 rest =>
        have hbrest : ∀ t ∈ rest, t.startIndex + offsetDelta < 4294967296 :=
          fun t ht => hb t (by simp [ht])
        have hinv := toBinaryTokensAux_startsBounds tokenTheme languageId offsetDelta
          h0 rest 0 0 (some (tokenTheme languageId t0.scopes)) (le_refl 0)
          (by omega) hbrest
        have hraw : toBinaryTokensRaw tokenTheme languageId (t0 :: rest) offsetDelta
            = (0 + offsetDelta) ::
              tokenTheme languageId t0.scopes ::
                toBinaryTokensAux tokenTheme languageId offsetDelta rest 1 0
                  (some (tokenTheme languageId t0.scopes)) := by
          rw [toBinaryTokensRaw]
          simp [toBinaryTokensAux]
        have hstarts : starts (toBinaryTokensRaw tokenTheme languageId
              (t0 :: rest) offsetDelta)
            = (0 + offsetDelta) ::
              starts (toBinaryTokensAux tokenTheme languageId offsetDelta rest 1 0
                (some (tokenTheme languageId t0.scopes))) := by
          rw [hraw, starts]
        have hchainInt : List.Chain' (fun a b : Int => a ≤ b)
            (starts (toBinaryTokensRaw tokenTheme languageId (t0 :: rest) offsetDelta)) := by
          rw [hstarts]
          have := hinv.1
          simpa using this
        have hmem : ∀ x ∈ starts (toBinaryTokensRaw tokenTheme languageId
            (t0 :: rest) offsetDelta), 0 ≤ x ∧ x < 4294967296 := by
          rw [hstarts]
          intro x hx
          rcases List.mem_cons.mp hx with hx | hx
          · subst hx; constructor <;> omega
          · exact hinv.2 x hx
        rw [toBinaryTokens, starts_map]
        rw [List.map_congr_left (fun x hx =>
          toUint32_eq_toNat x (hmem x hx).1 (hmem x hx).2)]
        rw [List.chain'_map]
        exact List.Chain'.imp (fun a b hab => Int.toNat_le_toNat hab) hchainInt
  · intro hne
    cases tokens with
    | nil => exact absurd rfl hne
    | cons t0 rest =>
        have hraw : toBinaryTokensRaw tokenTheme languageId (t0 :: rest) offsetDelta
            = (0 + offsetDelta) ::
              tokenTheme languageId t0.scopes ::
                toBinaryTokensAux tokenTheme languageId offsetDelta rest 1 0
                  (some (tokenTheme languageId t0.scopes)) := by
          rw [toBinaryTokensRaw]
          simp [toBinaryTokensAux]
        constructor
        · rw [toBinaryTokens, hraw]
          simp only [List.map_cons, List.head?_cons]
          rw [show (0 : Int) + offsetDelta = offsetDelta by ring,
            toUint32_eq_toNat offsetDelta h0 h1]
        · exact Int.toNat_of_nonneg h0

/-- Witness for `toBinaryTokens_wellFormed` at one token and
`offsetDelta = 3`. -/
theorem toBinaryTokens_wellFormed_witness :
    ((0 : Int) ≤ 3 ∧ (3 : Int) < 4294967296 ∧
      (∀ t ∈ ([⟨0, "x"⟩] : List IToken), t.startIndex + 3 < 4294967296) ∧
      ([⟨0, "x"⟩] : List IToken) ≠ []) ∧
    (toBinaryTokens (fun _ _ => 7) 0 [⟨0, "x"⟩] 3).length % 2 = 0 ∧
    List.Chain' (fun a b : Nat => a ≤ b)
      (starts (toBinaryTokens (fun _ _ => 7) 0 [⟨0, "x"⟩] 3)) ∧
    (toBinaryTokens (fun _ _ => 7) 0 [⟨0, "x"⟩] 3).head? = some ((3 : Int)).toNat ∧
    (((3 : Int)).toNat : Int) = 3 := by
  have th := toBinaryTokens_wellFormed (fun _ _ => 7) 0 [⟨0, "x"⟩] 3
    (by decide) (by decide) (by decide)
  exact ⟨⟨by decide, by decide, by decide, by decide⟩, th.1, th.2.1,
    (th.2.2 (by decide)).1, (th.2.2 (by decide)).2⟩

/-- Model of `modes.IState`: an opaque tokenization state.  In the embedding each
state object carries an object identity `objId`, so propositional equality
of `IState` values is reference identity; the grammar's behavioural
`equals` method is a separate relation supplied by the provider. -/
structure IState where
  objId : Nat
deriving DecidableEq, Repr

/-- Model of `ILineTokens` of standaloneLanguages.ts: the grammar engine's result
for one line. -/
structure ILineTokens where
  tokens : List IToken
  endState : IState

/-- Model of `TokensProvider` of standaloneLanguages.ts: the external grammar
engine consumed by the adapter. -/
structure TokensProvider where
  getInitialState : IState
  tokenize : String → IState → ILineTokens

/-- Model of `TokenizationResult` as consumed from vs/editor/common/core/token:
classic tokens plus the end state. -/
structure TokenizationResult where
  tokens : List Token
  endState : IState

/-- Model of `TokenizationResult2`: binary tokens plus the end state. -/
structure TokenizationResult2 where
  tokens : List Nat
  endState : IState

/-- Model of `TokenizationSupport2Adapter.tokenize` (standaloneLanguages.ts lines
146-167): run the actual provider, convert to classic tokens, and reuse the
input state object when the grammar's end state `equals` it
(`stateEquals a b` models `a.equals(b)`). -/
def adapterTokenize (stateEquals : IState → IState → Bool)
    (actual : TokensProvider) (language : String) (line : String)
    (state : IState) (offsetDelta : Int) : TokenizationResult :=
  let actualResult := actual.tokenize line state
  let tokens := toClassicTokens actualResult.tokens language offsetDelta
  let endState := if stateEquals actualResult.endState state then state
    else actualResult.endState
  TokenizationResult.mk tokens endState

/-- Model of `TokenizationSupport2Adapter.tokenize2` (standaloneLanguages.ts lines
208-225): run the actual provider, convert to binary tokens, and reuse the
input state object when the grammar's end state `equals` it. -/
def adapterTokenize2 (stateEquals : IState → IState → Bool)
    (actual : TokensProvider) (tokenTheme : Nat → String → Int)
    (languageId : Nat) (line : String) (state : IState)
    (offsetDelta : Int) : TokenizationResult2 :=
  let actualResult := actual.tokenize line state
  let tokens := toBinaryTokens tokenTheme languageId actualResult.tokens offsetDelta
  let endState := if stateEquals actualResult.endState state then state
    else actualResult.endState
  TokenizationResult2.mk tokens endState

/-- C4: for every line, input state and offsetDelta, if the grammar's
returned end state is `equals`-equal to the input state then both adapter
forms return the input state object itself (reference identity); otherwise
they return the grammar's new end state instance. -/
theorem adapter_endState_reuse (stateEquals : IState → IState → Bool)
    (actual : TokensProvider) (language : String)
    (tokenTheme : Nat → String → Int) (languageId : Nat)
    (line : String) (state : IState) (offsetDelta : Int) :
    (stateEquals (actual.tokenize line state).endState state = true →
      (adapterTokenize stateEquals actual language line state offsetDelta).endState
          = state ∧
      (adapterTokenize2 stateEquals actual tokenTheme languageId line state
          offsetDelta).endState = state) ∧
    (stateEquals (actual.tokenize line state).endState state = false →
      (adapterTokenize stateEquals actual language line state offsetDelta).endState
          = (actual.tokenize line state).endState ∧
      (adapterTokenize2 stateEquals actual tokenTheme languageId line state
          offsetDelta).endState = (actual.tokenize line state).endState) := by
  constructor
  · intro h
    constructor <;> simp [adapterTokenize, adapterTokenize2, h]
  · intro h
    constructor <;> simp [adapterTokenize, adapterTokenize2, h]

/-- Witness for `adapter_endState_reuse`: a provider whose end state
(a distinct object, `objId = 1`) is behaviourally equal to the input state
`objId = 0` makes both adapters return the input object; with an
always-false `equals`, both adapters return the new instance. -/
theorem adapter_endState_reuse_witness :
    ((adapterTokenize (fun _ _ => true)
        (TokensProvider.mk (IState.mk 0) (fun _ _ => ILineTokens.mk [] (IState.mk 1)))
        "lang" "abc" (IState.mk 0) 0).endState = IState.mk 0 ∧
      (adapterTokenize2 (fun _ _ => true)
        (TokensProvider.mk (IState.mk 0) (fun _ _ => ILineTokens.mk [] (IState.mk 1)))
        (fun _ _ => 7) 0 "abc" (IState.mk 0) 0).endState = IState.mk 0) ∧
    ((adapterTokenize (fun _ _ => false)
        (TokensProvider.mk (IState.mk 0) (fun _ _ => ILineTokens.mk [] (IState.mk 1)))
        "lang" "abc" (IState.mk 0) 0).endState = IState.mk 1 ∧
      (adapterTokenize2 (fun _ _ => false)
        (TokensProvider.mk (IState.mk 0) (fun _ _ => ILineTokens.mk [] (IState.mk 1)))
        (fun _ _ => 7) 0 "abc" (IState.mk 0) 0).endState = IState.mk 1) :=
  ⟨(adapter_endState_reuse (fun _ _ => true)
      (TokensProvider.mk (IState.mk 0) (fun _ _ => ILineTokens.mk [] (IState.mk 1)))
      "lang" (fun _ _ => 7) 0 "abc" (IState.mk 0) 0).1 rfl,
    (adapter_endState_reuse (fun _ _ => false)
      (TokensProvider.mk (IState.mk 0) (fun _ _ => ILineTokens.mk [] (IState.mk 1)))
      "lang" (fun _ _ => 7) 0 "abc" (IState.mk 0) 0).2 rfl⟩

/-- The argument of `setMonarchTokensProvider`: either an immediately
available Monarch language definition or a thenable (future) resolving to
one.  `isThenable` of the source distinguishes the two by the presence of a
`then` method, which the tagged union models. -/
inductive MonarchInput (α : Type) where
  | immediate (languageDef : α)
  | thenable (languageDef : α)

/-- Model of `isThenable` of standaloneLanguages.ts (lines 317-322). -/
def isThenable {α : Type} : MonarchInput α → Bool
  | MonarchInput.thenable _ => true
  | MonarchInput.immediate _ => false

/-- Observable side effects performed by `setMonarchTokensProvider`:
the `alert()` call on line 339, `TokenizationRegistry.registerPromise`, and
`TokenizationRegistry.register`. -/
inductive Effect where
  | alertCall
  | registerPromise (languageId : String)
  | register (languageId : String)
deriving DecidableEq, Repr

/-- Model of `setMonarchTokensProvider` (standaloneLanguages.ts lines 327-346),
modelled as the trace of observable side effects it performs in order: for
a thenable definition the source executes `alert();` and then registers the
promise with the tokenization registry; for an immediate definition it
registers the created tokenization support. -/
def setMonarchTokensProvider {α : Type} (languageId : String)
    (languageDef : MonarchInput α) : List Effect :=
  if isThenable languageDef then
    [Effect.alertCall, Effect.registerPromise languageId]
  else
    [Effect.register languageId]

/-- C5 names a real divergence in the code: for every thenable language
definition, `setMonarchTokensProvider` does register the pending tokenizer
with the tokenization registry before the future resolves, but it first
executes a stray `alert()` (standaloneLanguages.ts line 339) — an
observable side effect beyond the registration (and a `ReferenceError` in
environments without `alert`), contradicting the claimed absence of other
side effects. -/
theorem setMonarchTokensProvider_thenable_alert {α : Type}
    (languageId : String) (languageDef : α) :
    setMonarchTokensProvider languageId (MonarchInput.thenable languageDef)
      = [Effect.alertCall, Effect.registerPromise languageId] ∧
    Effect.alertCall ∈
      setMonarchTokensProvider languageId (MonarchInput.thenable languageDef) ∧
    setMonarchTokensProvider languageId (MonarchInput.thenable languageDef)
      ≠ [Effect.registerPromise languageId] := by
  refine ⟨rfl, by simp [setMonarchTokensProvider, isThenable], by
    simp [setMonarchTokensProvider, isThenable]⟩

/-- Theme variant: the `type` of an `ITheme` (`dark`, `light` or `hc`). -/
inductive ThemeType where
  | dark
  | light
  | hc
deriving DecidableEq, Repr

/-- Modelled from the spec: `RGBA` of vs/base/common/color is not among the
sources; a color holds red, green, blue channels 0-255 and an alpha channel,
stored here as a byte 0-255. -/
structure RGBA where
  r : Nat
  g : Nat
  b : Nat
  a : Nat
deriving DecidableEq, Repr

/-- Modelled from the spec: `Color` of vs/base/common/color is not among
the sources; only its role as an opaque concrete color value is needed. -/
structure Color where
  rgba : RGBA
deriving DecidableEq, Repr

/-- Value of a hexadecimal digit character. -/
def hexVal (c : Char) : Option Nat :=
  if '0' ≤ c ∧ c ≤ '9' then some (c.toNat - '0'.toNat)
  else if 'a' ≤ c ∧ c ≤ 'f' then some (c.toNat - 'a'.toNat + 10)
  else if 'A' ≤ c ∧ c ≤ 'F' then some (c.toNat - 'A'.toNat + 10)
  else none

/-- Two-hex-digit byte value. -/
def hexByte (h l : Char) : Option Nat :=
  match hexVal h, hexVal l with
  | some a, some b => some (a * 16 + b)
  | _, _ => none

/-- Modelled from the spec: `Color.fromHex` (vs/base/common/color is not
among the sources) parses `#RGB`, `#RRGGBB` and `#RRGGBBAA` literals; an
unparsable string yields opaque red. -/
def Color.fromHex (s : String) : Color :=
  match s.data with
  | ['#', r, g, b] =>
    match hexVal r, hexVal g, hexVal b with
    | some r, some g, some b => Color.mk (RGBA.mk (r * 17) (g * 17) (b * 17) 255)
    | _, _, _ => Color.mk (RGBA.mk 255 0 0 255)
  | ['#', r1, r2, g1, g2, b1, b2] =>
    match hexByte r1 r2, hexByte g1 g2, hexByte b1 b2 with
    | some r, some g, some b => Color.mk (RGBA.mk r g b 255)
    | _, _, _ => Color.mk (RGBA.mk 255 0 0 255)
  | ['#', r1, r2, g1, g2, b1, b2, a1, a2] =>
    match hexByte r1 r2, hexByte g1 g2, hexByte b1 b2, hexByte a1 a2 with
    | some r, some g, some b, some a => Color.mk (RGBA.mk r g b a)
    | _, _, _, _ => Color.mk (RGBA.mk 255 0 0 255)
  | _ => Color.mk (RGBA.mk 255 0 0 255)

/-- Model of `ITheme` as consumed by the color registry: the theme variant and the
`getColor` capability. -/
structure ITheme where
  type : ThemeType
  getColor : String → Option Color

/-- Model of `ColorValue` of the color registry module: a color literal, a string
(either a `#...` hex literal or a reference to another color identifier),
or a derived-color function of the theme.  The source distinguishes the
variants by `typeof`/`instanceof`; the tagged union models that dispatch. -/
inductive ColorValue where
  | str (s : String)
  | color (c : Color)
  | func (f : ITheme → Option Color)

/-- Model of `ColorDefaults`: one optional (nullable) color value per theme
variant. -/
structure ColorDefaults where
  light : Option ColorValue
  dark : Option ColorValue
  hc : Option ColorValue

/-- Model of `defaults[theme.type]` — indexing a `ColorDefaults` record with the
theme variant. -/
def ColorDefaults.get (d : ColorDefaults) : ThemeType → Option ColorValue
  | ThemeType.dark => d.dark
  | ThemeType.light => d.light
  | ThemeType.hc => d.hc

/-- The check `colorValue[0] === '#'` of part_005 line 452: in JavaScript
`s[0]` of the empty string is `undefined`, which is not `'#'`. -/
def startsWithHash (s : String) : Bool :=
  match s.data with
  | '#' :: _ => true
  | _ => false

/-- Model of `resolveColorValue` of the color registry module (part_005 lines
448-462): `null` resolves to undefined; a string starting with `#` parses
as a hex literal; any other string is looked up through `theme.getColor`
(one hop, no recursion in the resolver itself); a `Color` resolves to
itself; a function is applied to the theme. -/
def resolveColorValue : Option ColorValue → ITheme → Option Color
  | none, _ => none
  | some (ColorValue.str s), theme =>
    if startsWithHash s then some (Color.fromHex s) else theme.getColor s
  | some (ColorValue.color c), _ => some c
  | some (ColorValue.func f), theme => f theme

/-- C6: the case analysis of `resolveColorValue`: null → undefined;
`#`-prefixed string → the parsed literal hex color; other string → one hop
through `theme.getColor`; an existing `Color` → itself unchanged; a
function → its value on the theme (possibly undefined). -/
theorem resolveColorValue_cases (theme : ITheme) :
    resolveColorValue none theme = none ∧
    (∀ s : String, resolveColorValue (some (ColorValue.str s)) theme
      = if startsWithHash s then some (Color.fromHex s) else theme.getColor s) ∧
    (∀ c : Color, resolveColorValue (some (ColorValue.color c)) theme = some c) ∧
    (∀ f : ITheme → Option Color,
      resolveColorValue (some (ColorValue.func f)) theme = f theme) :=
  ⟨rfl, fun _ => rfl, fun _ => rfl, fun _ => rfl⟩

/-- Model of `ColorContribution` (part_005 lines 21-27). -/
structure ColorContribution where
  id : String
  description : String
  defaults : Option ColorDefaults
  needsTransparency : Bool
  deprecationMessage : Option String

/-- The JSON property schema entry `registerColor` derives for a color id
(part_005 line 107): `type: 'string'` and the constant `format`/`default`
fields, plus the optional deprecation message. -/
structure PropertySchema where
  description : String
  format : String
  defaultValue : String
  deprecationMessage : Option String

/-- JavaScript truthiness of an optional string (`if (deprecationMessage)`):
`undefined` and the empty string are falsy. -/
def jsTruthy : Option String → Bool
  | none => false
  | some s => s ≠ ""

/-- Assignment `obj[key] = value` on a JavaScript plain object modelled as
an insertion-ordered association list: overwrite in place when the key
exists, append otherwise (object keys stay unique). -/
def insertOrReplace {α : Type} (l : List (String × α)) (k : String) (v : α) :
    List (String × α) :=
  if l.any (fun p => p.1 == k) then
    l.map (fun p => if p.1 == k then (k, v) else p)
  else l ++ [(k, v)]

/-- Model of `Array.prototype.indexOf` returning `none` for `-1`. -/
def jsIndexOf : List String → String → Option Nat
  | [], _ => none
  | a :: l, id => if a == id then some 0 else (jsIndexOf l id).map (· + 1)

/-- Model of `Array.prototype.splice(i, 1)`: remove the element at index `i`. -/
def spliceAt {α : Type} : List α → Nat → List α
  | [], _ => []
  | _ :: l, 0 => l
  | a :: l, n + 1 => a :: spliceAt l n

/-- The mutable state of the `ColorRegistry` singleton: `colorsById`, the
two pieces of `colorSchema`/`colorReferenceSchema` that registration
maintains, and a counter of `_onDidChangeSchema.fire()` emissions. -/
structure ColorRegistryState where
  colorsById : List (String × ColorContribution)
  schemaProperties : List (String × PropertySchema)
  refEnum : List String
  refEnumDescriptions : List String
  schemaEvents : Nat

/-- The empty registry (`this.colorsById = {}` in the constructor). -/
def emptyColorRegistry : ColorRegistryState :=
  ColorRegistryState.mk [] [] [] [] 0

/-- Model of `ColorRegistry.registerColor` (part_005 lines 104-117): store the
contribution under `id` (last writer wins), derive the property schema,
unconditionally push `id` and its description onto the reference-schema
enumeration, fire the schema-changed event, and return `id`. -/
def registerColor (st : ColorRegistryState) (id : String)
    (defaults : Option ColorDefaults) (description : String)
    (needsTransparency : Bool) (deprecationMessage : Option String) :
    ColorRegistryState × String :=
  let colorContribution := ColorContribution.mk id description defaults
    needsTransparency deprecationMessage
  let propertySchema := PropertySchema.mk description "color-hex" "#ff0000"
    (if jsTruthy deprecationMessage then deprecationMessage else none)
  (ColorRegistryState.mk
    (insertOrReplace st.colorsById id colorContribution)
    (insertOrReplace st.schemaProperties id propertySchema)
    (st.refEnum ++ [id])
    (st.refEnumDescriptions ++ [description])
    (st.schemaEvents + 1), id)

/-- Model of `ColorRegistry.deregisterColor` (part_005 lines 120-129): delete the
contribution and the schema property, splice the first occurrence of `id`
out of the reference-schema enumeration (and its description) when present,
and fire the schema-changed event. -/
def deregisterColor (st : ColorRegistryState) (id : String) :
    ColorRegistryState :=
  let colorsById := st.colorsById.filter (fun p => !(p.1 == id))
  let schemaProperties := st.schemaProperties.filter (fun p => !(p.1 == id))
  match jsIndexOf st.refEnum id with
  | some i =>
    ColorRegistryState.mk colorsById schemaProperties
      (spliceAt st.refEnum i) (spliceAt st.refEnumDescriptions i)
      (st.schemaEvents + 1)
  | none =>
    ColorRegistryState.mk colorsById schemaProperties
      st.refEnum st.refEnumDescriptions (st.schemaEvents + 1)

/-- Model of `ColorRegistry.getColors` (part_005 lines 131-133): the contributions in
key order. -/
def getColors (st : ColorRegistryState) : List ColorContribution :=
  st.colorsById.map (fun p => p.2)

/-- The lookup `this.colorsById[id]`. -/
def lookupContribution (st : ColorRegistryState) (id : String) :
    Option ColorContribution :=
  (st.colorsById.find? (fun p => p.1 == id)).map (fun p => p.2)

/-- Model of `ColorRegistry.resolveDefaultColor` (part_005 lines 135-142): when the
id has a contribution with non-null defaults, resolve the default for the
theme's variant; otherwise undefined. -/
def resolveDefaultColor (st : ColorRegistryState) (id : String)
    (theme : ITheme) : Option Color :=
  match lookupContribution st id with
  | some colorDesc =>
    match colorDesc.defaults with
    | some d => resolveColorValue (ColorDefaults.get d theme.type) theme
    | none => none
  | none => none

/-- C7: `resolveDefaultColor` returns undefined when the id has no
registered contribution, when the contribution's defaults object is null,
and when its defaults entry for `theme.type` is null; otherwise it returns
the result of resolving that default value against the theme. -/
theorem resolveDefaultColor_cases (st : ColorRegistryState) (id : String)
    (theme : ITheme) :
    (lookupContribution st id = none → resolveDefaultColor st id theme = none) ∧
    (∀ c, lookupContribution st id = some c → c.defaults = none →
      resolveDefaultColor st id theme = none) ∧
    (∀ c d, lookupContribution st id = some c → c.defaults = some d →
      ColorDefaults.get d theme.type = none →
      resolveDefaultColor st id theme = none) ∧
    (∀ c d v, lookupContribution st id = some c → c.defaults = some d →
      ColorDefaults.get d theme.type = some v →
      resolveDefaultColor st id theme = resolveColorValue (some v) theme) := by
  refine ⟨?_, ?_, ?_, ?_⟩
  · intro h; simp [resolveDefaultColor, h]
  · intro c h hd; simp [resolveDefaultColor, h, hd]
  · intro c d h hd hv; simp [resolveDefaultColor, h, hd, hv, resolveColorValue]
  · intro c d v h hd hv; simp [resolveDefaultColor, h, hd, hv]

/-- A registry with color `"a"` registered with dark default `"#FF0000"`. -/
def regA : ColorRegistryState :=
  (registerColor emptyColorRegistry "a"
    (some (ColorDefaults.mk none (some (ColorValue.str "#FF0000")) none))
    "" false none).1

/-- A registry with `"a"` as in `regA` and `"b"` registered with dark
default the reference string `"a"`. -/
def regAB : ColorRegistryState :=
  (registerColor regA "b"
    (some (ColorDefaults.mk none (some (ColorValue.str "a")) none))
    "" false none).1

/-- A dark theme that resolves no identifier at all. -/
def blindDarkTheme : ITheme := ITheme.mk ThemeType.dark (fun _ => none)

/-- Witness for `resolveDefaultColor_cases`: an unregistered id, a
registered id with a null dark default, and a registered id with a literal
dark default. -/
theorem resolveDefaultColor_cases_witness :
    resolveDefaultColor emptyColorRegistry "nope" blindDarkTheme = none ∧
    resolveDefaultColor (registerColor emptyColorRegistry "c"
        (some (ColorDefaults.mk none none none)) "" false none).1 "c"
        blindDarkTheme = none ∧
    resolveDefaultColor regA "a" blindDarkTheme
      = resolveColorValue (some (ColorValue.str "#FF0000")) blindDarkTheme :=
  ⟨(resolveDefaultColor_cases emptyColorRegistry "nope" blindDarkTheme).1 rfl,
    (resolveDefaultColor_cases _ "c" blindDarkTheme).2.2.1
      (ColorContribution.mk "c" "" (some (ColorDefaults.mk none none none))
        false none)
      (ColorDefaults.mk none none none) rfl rfl rfl,
    (resolveDefaultColor_cases regA "a" blindDarkTheme).2.2.2
      (ColorContribution.mk "a" ""
        (some (ColorDefaults.mk none (some (ColorValue.str "#FF0000")) none))
        false none)
      (ColorDefaults.mk none (some (ColorValue.str "#FF0000")) none)
      (ColorValue.str "#FF0000") rfl rfl rfl⟩

/-- C8 fails for an arbitrary dark theme: `"b"`'s dark default `"a"` is
resolved through the external `theme.getColor` capability, not through the
registry, so a dark theme that does not itself resolve `"a"` yields
undefined rather than `#FF0000`. -/
theorem resolveDefaultColor_reference_theme_dependent :
    resolveDefaultColor regAB "b" blindDarkTheme = none ∧
    (none : Option Color) ≠ some (Color.fromHex "#FF0000") :=
  ⟨rfl, fun h => Option.noConfusion h⟩

/-- C8 amended: resolving `"b"` yields whatever `theme.getColor "a"`
returns; in particular, against any dark theme whose `getColor` agrees with
the registry's own default resolution for `"a"`, resolving `"b"` yields
`#FF0000`. -/
theorem resolveDefaultColor_reference_resolves (theme : ITheme)
    (h1 : theme.type = ThemeType.dark)
    (h2 : theme.getColor "a" = resolveDefaultColor regAB "a" theme) :
    resolveDefaultColor regAB "b" theme = some (Color.fromHex "#FF0000") := by
  cases theme with
  | mk ty gc =>
      simp only at h1
      subst h1
      have hb : resolveDefaultColor regAB "b" (ITheme.mk ThemeType.dark gc)
          = gc "a" := rfl
      have ha : resolveDefaultColor regAB "a" (ITheme.mk ThemeType.dark gc)
          = some (Color.fromHex "#FF0000") := rfl
      simp only at h2
      rw [hb, h2, ha]

/-- A dark theme whose `getColor` resolves `"a"` to the registry's default
for `"a"`. -/
def goodDarkTheme : ITheme :=
  ITheme.mk ThemeType.dark
    (fun s => if s = "a" then some (Color.fromHex "#FF0000") else none)

/-- Witness for `resolveDefaultColor_reference_resolves` at
`goodDarkTheme`. -/
theorem resolveDefaultColor_reference_resolves_witness :
    (goodDarkTheme.type = ThemeType.dark ∧
      goodDarkTheme.getColor "a" = resolveDefaultColor regAB "a" goodDarkTheme) ∧
    resolveDefaultColor regAB "b" goodDarkTheme = some (Color.fromHex "#FF0000") :=
  ⟨⟨rfl, rfl⟩, resolveDefaultColor_reference_resolves goodDarkTheme rfl rfl⟩

theorem filter_self_idem {α : Type} (p : α → Bool) (l : List α) :
    (l.filter p).filter p = l.filter p := by
  induction l with
  | nil => rfl
  | cons a l ih =>
      by_cases h : p a <;> simp [List.filter_cons, h, ih]

theorem jsIndexOf_eq_none_iff (id : String) :
    ∀ l : List String, jsIndexOf l id = none ↔ id ∉ l := by
  intro l
  induction l with
  | nil => simp [jsIndexOf]
  | cons a t ih =>
      by_cases ha : a = id
      · simp [jsIndexOf, ha]
      · simp only [jsIndexOf, beq_iff_eq, if_neg ha, List.mem_cons, not_or]
        constructor
        · intro h
          cases hj : jsIndexOf t id with
          | none => exact ⟨fun hh => ha hh.symm, ih.mp hj⟩
          | some j => rw [hj] at h; exact absurd h (by simp)
        · intro h
          rw [ih.mpr h.2]
          rfl

theorem deregisterColor_colorsById (st : ColorRegistryState) (id : String) :
    (deregisterColor st id).colorsById
      = st.colorsById.filter (fun p => !(p.1 == id)) := by
  cases h : jsIndexOf st.refEnum id <;> simp [deregisterColor, h]

theorem deregisterColor_schemaProperties (st : ColorRegistryState) (id : String) :
    (deregisterColor st id).schemaProperties
      = st.schemaProperties.filter (fun p => !(p.1 == id)) := by
  cases h : jsIndexOf st.refEnum id <;> simp [deregisterColor, h]

theorem deregisterColor_schemaEvents (st : ColorRegistryState) (id : String) :
    (deregisterColor st id).schemaEvents = st.schemaEvents + 1 := by
  cases h : jsIndexOf st.refEnum id <;> simp [deregisterColor, h]

theorem deregisterColor_enum_of_none (st : ColorRegistryState) (id : String)
    (h : jsIndexOf st.refEnum id = none) :
    (deregisterColor st id).refEnum = st.refEnum ∧
    (deregisterColor st id).refEnumDescriptions = st.refEnumDescriptions := by
  simp [deregisterColor, h]

theorem not_mem_spliceAt_of_jsIndexOf (id : String) :
    ∀ (l : List String) (i : Nat), jsIndexOf l id = some i →
      l.count id ≤ 1 → id ∉ spliceAt l i := by
  intro l
  induction l with
  | nil => intro i h _; simp [jsIndexOf] at h
  | cons a t ih =>
      intro i h hcnt
      by_cases ha : a = id
      · subst ha
        simp [jsIndexOf] at h
        subst h
        simp only [spliceAt]
        rw [List.count_cons_self] at hcnt
        exact List.count_eq_zero.mp (by omega)
      · simp only [jsIndexOf, beq_iff_eq, if_neg ha] at h
        cases hj : jsIndexOf t id with
        | none => rw [hj] at h; exact absurd h (by simp)
        | some j =>
            rw [hj] at h
            simp at h
            subst h
            simp only [spliceAt, List.mem_cons, not_or]
            have hcnt' : t.count id ≤ 1 := by
              rw [List.count_cons_of_ne (fun hh => ha hh.symm)] at hcnt
              exact hcnt
            exact ⟨fun hh => ha hh.symm, ih j hj hcnt'⟩

theorem deregisterColor_refEnum_not_mem (st : ColorRegistryState) (id : String)
    (hcnt : st.refEnum.count id ≤ 1) :
    id ∉ (deregisterColor st id).refEnum := by
  cases h : jsIndexOf st.refEnum id with
  | none =>
      rw [(deregisterColor_enum_of_none st id h).1]
      exact (jsIndexOf_eq_none_iff id st.refEnum).mp h
  | some i =>
      have : (deregisterColor st id).refEnum = spliceAt st.refEnum i := by
        simp [deregisterColor, h]
      rw [this]
      exact not_mem_spliceAt_of_jsIndexOf id st.refEnum i h hcnt

/-- C9 fails in general: `registerColor` pushes the id onto the
reference-schema enumeration even when overwriting an existing
registration, so after registering `"dup"` twice and deregistering it once
the enumeration still contains `"dup"` (a schema entry survives), and a
second deregister is not a no-op — it removes the leftover entry. -/
theorem deregisterColor_second_not_noop :
    (deregisterColor (registerColor ((registerColor emptyColorRegistry "dup"
        none "" false none).1) "dup" none "" false none).1 "dup").refEnum
      = ["dup"] ∧
    (deregisterColor (deregisterColor (registerColor ((registerColor
        emptyColorRegistry "dup" none "" false none).1) "dup" none "" false
        none).1 "dup") "dup").refEnum = [] ∧
    (["dup"] : List String) ≠ [] :=
  ⟨rfl, rfl, by decide⟩

/-- C9 amended: provided the id occurs at most once in the
reference-schema enumeration (true whenever it was registered at most once
since it was last deregistered), after `deregisterColor id` the id appears
in `getColors()` no more and its contribution and schema entries are
removed, and a second `deregisterColor` of the same id — the id now being
absent everywhere, exactly as for an id that was never registered — leaves
the registry data unchanged and raises no error; every `deregisterColor`
call fires the schema-changed notification.  Without the proviso a doubly
registered id leaves a reference-schema entry behind, which a second
deregister then removes (see the counterexample). -/
theorem deregisterColor_spec (st : ColorRegistryState) (id : String)
    (hwf : ∀ p ∈ st.colorsById, p.2.id = p.1)
    (hcnt : st.refEnum.count id ≤ 1) :
    (∀ c ∈ getColors (deregisterColor st id), c.id ≠ id) ∧
    lookupContribution (deregisterColor st id) id = none ∧
    (∀ p ∈ (deregisterColor st id).schemaProperties, p.1 ≠ id) ∧
    id ∉ (deregisterColor st id).refEnum ∧
    (deregisterColor st id).schemaEvents = st.schemaEvents + 1 ∧
    (deregisterColor (deregisterColor st id) id).colorsById
      = (deregisterColor st id).colorsById ∧
    (deregisterColor (deregisterColor st id) id).schemaProperties
      = (deregisterColor st id).schemaProperties ∧
    (deregisterColor (deregisterColor st id) id).refEnum
      = (deregisterColor st id).refEnum ∧
    (deregisterColor (deregisterColor st id) id).refEnumDescriptions
      = (deregisterColor st id).refEnumDescriptions ∧
    (deregisterColor (deregisterColor st id) id).schemaEvents
      = (deregisterColor st id).schemaEvents + 1 := by
  have hnotmem : id ∉ (deregisterColor st id).refEnum :=
    deregisterColor_refEnum_not_mem st id hcnt
  have hidx : jsIndexOf (deregisterColor st id).refEnum id = none :=
    (jsIndexOf_eq_none_iff id _).mpr hnotmem
  refine ⟨?_, ?_, ?_, hnotmem, deregisterColor_schemaEvents st id, ?_, ?_,
    (deregisterColor_enum_of_none _ id hidx).1,
    (deregisterColor_enum_of_none _ id hidx).2,
    deregisterColor_schemaEvents _ id⟩
  · intro c hc
    rw [getColors, deregisterColor_colorsById] at hc
    obtain ⟨p, hp, hpc⟩ := List.mem_map.mp hc
    have hmem := List.mem_filter.mp hp
    have hne : p.1 ≠ id := by
      have := hmem.2
      simpa using this
    rw [← hpc, hwf p hmem.1]
    exact hne
  · rw [lookupContribution, deregisterColor_colorsById]
    rw [List.find?_eq_none.mpr]
    · rfl
    · intro p hp
      have := (List.mem_filter.mp hp).2
      simpa using this
  · intro p hp
    rw [deregisterColor_schemaProperties] at hp
    have := (List.mem_filter.mp hp).2
    simpa using this
  · rw [deregisterColor_colorsById, deregisterColor_colorsById]
    exact filter_self_idem _ _
  · rw [deregisterColor_schemaProperties, deregisterColor_schemaProperties]
    exact filter_self_idem _ _

/-- Witness for `deregisterColor_spec` at the registry holding only
`"a"`. -/
theorem deregisterColor_spec_witness :
    ((∀ p ∈ regA.colorsById, p.2.id = p.1) ∧ regA.refEnum.count "a" ≤ 1) ∧
    (∀ c ∈ getColors (deregisterColor regA "a"), c.id ≠ "a") ∧
    lookupContribution (deregisterColor regA "a") "a" = none ∧
    "a" ∉ (deregisterColor regA "a").refEnum ∧
    (deregisterColor regA "a").schemaEvents = regA.schemaEvents + 1 ∧
    (deregisterColor (deregisterColor regA "a") "a").refEnum
      = (deregisterColor regA "a").refEnum ∧
    (deregisterColor (deregisterColor regA "a") "a").schemaEvents
      = (deregisterColor regA "a").schemaEvents + 1 := by
  have th := deregisterColor_spec regA "a" (by decide) (by decide)
  exact ⟨⟨by decide, by decide⟩, th.1, th.2.1, th.2.2.2.1, th.2.2.2.2.1,
    th.2.2.2.2.2.2.2.1, th.2.2.2.2.2.2.2.2.2⟩
